import Mathlib

/-!
Verification of the Hangman rules engine

Shallow embedding of `gameLogic.py` (class `HangmanGame`) and `wordBank.py`
(class `WordBank`).  Python strings are modelled as `List Char` (ASCII range,
which covers every word shipped with the program); Python's `set` is modelled
as `Finset Char`; Python's `random.choice` — an external collaborator per the
spec — is modelled by an injectable index `k : Nat`, the pick being position
`k % length` of the candidate list, so that a uniformly distributed `k`
yields the uniform choice over list positions that `random.choice` performs.
Fallible operations return `Option` / `Except`.
-/

namespace Hangman

/-- Source `gameLogic.py` line 21: `DEFAULT_MAX_ATTEMPTS: int = 6`. -/
def DEFAULT_MAX_ATTEMPTS : Int := 6

/-- Source `gameLogic.py` line 22: `HINT_COST: int = 2`. -/
def HINT_COST : Nat := 2

/-- Source `gameLogic.py` line 23: `AUTO_REVEAL_LETTERS: Set[str] = {'r','s','t','l','n','e'}`. -/
def AUTO_REVEAL_LETTERS : Finset Char := {'r', 's', 't', 'l', 'n', 'e'}

/-- Python `str.isalpha()`: true iff the string is non-empty and every
character is alphabetic (restricted here to the ASCII letters that
`Char.isAlpha` recognises). -/
def pyIsAlpha (s : List Char) : Bool :=
  !s.isEmpty && s.all Char.isAlpha

/-- State of `HangmanGame` (`gameLogic.py` lines 31–36): the secret word,
the attempt budget, the set of used letters and the wrong-guess counter.
`max_attempts` is a Python `int`, accepted unvalidated (may be ≤ 0), hence
`Int`; `wrong_guesses` is only ever incremented from 0, hence `Nat`. -/
structure HangmanGame where
  secret_word : List Char
  max_attempts : Int
  used_letters : Finset Char
  wrong_guesses : Nat
  deriving DecidableEq

/-- Method `HangmanGame._autoRevealCommonLetters` (lines 47–53): add every letter of
`AUTO_REVEAL_LETTERS` to `used_letters`. -/
def autoRevealCommonLetters (g : HangmanGame) : HangmanGame :=
  { g with used_letters := g.used_letters ∪ AUTO_REVEAL_LETTERS }

/-- Constructor `HangmanGame.__init__` (lines 31–36): lowercase and store the word, store
the budget, start with no used letters and zero wrong guesses, then apply the
auto-reveal bonus. -/
def initGame (secret_word : List Char) (max_attempts : Int) : HangmanGame :=
  autoRevealCommonLetters
    { secret_word := secret_word.map Char.toLower
      max_attempts := max_attempts
      used_letters := ∅
      wrong_guesses := 0 }

/-- Method `HangmanGame.resetGame` (lines 38–45): lowercase and store the new word,
clear `used_letters`, zero `wrong_guesses`, re-apply the auto-reveal bonus. -/
def resetGame (g : HangmanGame) (new_secret_word : List Char) : HangmanGame :=
  autoRevealCommonLetters
    { g with
      secret_word := new_secret_word.map Char.toLower
      used_letters := ∅
      wrong_guesses := 0 }

/-- Method `HangmanGame.getMaskedWord` (lines 55–63): each character of the secret
word if used, else `'_'`, joined by single spaces (`" ".join`, i.e.
`List.intercalate [' ']` over the one-character fragments). -/
def getMaskedWord (g : HangmanGame) : List Char :=
  List.intercalate [' ']
    (g.secret_word.map (fun letter => if letter ∈ g.used_letters then [letter] else ['_']))

/-- Method `HangmanGame.processGuess` (lines 65–89).  The Python code lowercases the
input, rejects it unless it is exactly one alphabetic character
(`not letter.isalpha() or len(letter) != 1`), rejects letters already used,
otherwise records the letter and charges one wrong guess when it does not
occur in the secret word.  Returns the Python return value paired with the
updated state. -/
def processGuess (g : HangmanGame) (letter : List Char) : Bool × HangmanGame :=
  match letter.map Char.toLower with
  | [c] =>
      if !c.isAlpha then (false, g)
      else if c ∈ g.used_letters then (false, g)
      else
        let g1 : HangmanGame := { g with used_letters := insert c g.used_letters }
        if c ∉ g.secret_word then
          (false, { g1 with wrong_guesses := g1.wrong_guesses + 1 })
        else
          (true, g1)
  | _ => (false, g)

/-- The list built at `gameLogic.py` lines 106–109: the characters of the
secret word, in order and with multiplicity, that are alphabetic and not yet
used. -/
def unguessed (g : HangmanGame) : List Char :=
  g.secret_word.filter (fun c => c ∉ g.used_letters ∧ c.isAlpha)

/-- Method `HangmanGame.useHint` (lines 91–123).  If fewer than `HINT_COST` attempts
remain, return `none` untouched; if no unguessed alphabetic character of the
secret word exists, return `none` untouched; otherwise reveal
`random.choice(unguessed)` — modelled as position `k % length` of the list —
record it as used, and add `HINT_COST` to `wrong_guesses`. -/
def useHint (g : HangmanGame) (k : Nat) : Option Char × HangmanGame :=
  let remaining_attempts : Int := g.max_attempts - g.wrong_guesses
  if remaining_attempts < (HINT_COST : Int) then (none, g)
  else
    match unguessed g with
    | [] => (none, g)
    | c :: cs =>
        let letter_to_reveal := (c :: cs).get ⟨k % (cs.length + 1), Nat.mod_lt k (Nat.succ_pos cs.length)⟩
        (some letter_to_reveal,
          { g with
            used_letters := insert letter_to_reveal g.used_letters
            wrong_guesses := g.wrong_guesses + HINT_COST })

/-- Method `HangmanGame.isWon` (lines 125–129): every character of the secret word —
the code does not restrict to alphabetic ones — is in `used_letters`. -/
def isWon (g : HangmanGame) : Bool :=
  g.secret_word.all (fun letter => letter ∈ g.used_letters)

/-- Method `HangmanGame.isLost` (lines 131–135): `wrong_guesses >= max_attempts`. -/
def isLost (g : HangmanGame) : Bool :=
  (g.max_attempts : Int) ≤ g.wrong_guesses

/-- Method `HangmanGame.isFinished` (lines 137–141). -/
def isFinished (g : HangmanGame) : Bool :=
  isWon g || isLost g

/-- One mutating engine call inside a round: a guess or a hint (the queries
`getMaskedWord`, `isWon`, `isLost`, `isFinished` are pure functions of the
state in this embedding, so a "query call" leaves the state unchanged by
construction). -/
inductive GameOp where
  | guess (letter : List Char)
  | hint (k : Nat)
  deriving Repr

/-- Apply one mutating call, discarding the returned value. -/
def applyOp (g : HangmanGame) : GameOp → HangmanGame
  | .guess letter => (processGuess g letter).2
  | .hint k => (useHint g k).2

/-- Engine states reachable from some construction by guesses, hints and
resets. -/
inductive Reachable : HangmanGame → Prop where
  | init (w : List Char) (m : Int) : Reachable (initGame w m)
  | guess (g : HangmanGame) (s : List Char) : Reachable g → Reachable (processGuess g s).2
  | hint (g : HangmanGame) (k : Nat) : Reachable g → Reachable (useHint g k).2
  | reset (g : HangmanGame) (w : List Char) : Reachable g → Reachable (resetGame g w)

/-! ## Word bank (`wordBank.py`) -/

/-- Source `wordBank.py` line 20: `DEFAULT_CATEGORY: str = "general"`. -/
def DEFAULT_CATEGORY : String := "general"

/-- State of `WordBank` (`wordBank.py` lines 28–30): the `categories`
dictionary, modelled as an association list from category name to word
list. -/
structure WordBank where
  categories : List (String × List String)

/-- Method `WordBank._initializeDefaultCategories` (lines 32–53): the dictionary the
constructor installs. -/
def defaultCategories : List (String × List String) :=
  [ ("general", ["python", "hangman", "developer", "keyboard", "algorithm", "variable", "database", "interface", "framework", "encryption"]),
    ("animals", ["elephant", "giraffe", "kangaroo", "alligator", "platypus", "rhinoceros", "penguin", "cheetah", "dolphin", "octopus"]),
    ("fruits", ["banana", "strawberry", "pineapple", "watermelon", "blueberry", "pomegranate", "mango", "kiwi", "coconut", "papaya"]),
    ("movies", ["inception", "gladiator", "titanic", "avatar", "matrix", "godfather", "interstellar", "joker", "parasite", "dune"]),
    ("countries", ["australia", "brazil", "canada", "denmark", "egypt", "france", "japan", "mexico", "norway", "portugal"]),
    ("science", ["physics", "chemistry", "biology", "astronomy", "quantum", "gravity", "evolution", "molecule", "ecosystem", "hypothesis"]),
    ("winter 2025", ["blizzard", "snowflake", "hibernate", "avalanche", "frostbite", "snowstorm", "icicle", "reindeer", "polar", "solstice"]),
    ("minecraft", ["creeper", "diamond", "crafting", "redstone", "zombie", "steve", "enderman", "nether", "obsidian", "enchantment"]),
    ("among us", ["impostor", "suspect", "vent", "emergency", "crewmate", "sabotage", "medbay", "reactor", "oxygen", "electrical"]),
    ("fortnite", ["battle", "victory", "chug", "storm", "island", "building", "zero", "marvel", "legendary", "supply"]),
    ("coding", ["boolean", "function", "variable", "debug", "syntax", "compile", "recursion", "iteration", "polymorphism", "abstraction"]),
    ("space", ["galaxy", "nebula", "astronaut", "telescope", "planet", "asteroid", "cosmos", "satellite", "meteor", "universe"]),
    ("superheroes", ["thor", "wonder", "batman", "superman", "hulk", "widow", "panther", "vision", "quicksilver", "antman"]),
    ("fantasy", ["dragon", "wizard", "kingdom", "sorcery", "potion", "unicorn", "dungeon", "phoenix", "troll", "enchanted"]),
    ("ocean", ["submarine", "coral", "shipwreck", "treasure", "hurricane", "lighthouse", "buoy", "tsunami", "whale", "dolphin"]) ]

/-- Constructor `WordBank.__init__` (lines 28–30). -/
def initWordBank : WordBank :=
  { categories := defaultCategories }

/-- Method `WordBank.getWordsForCategory` (lines 61–68): an unknown category name is
replaced by `DEFAULT_CATEGORY`; the list is then read with an empty-list
fallback (Python's `dict.get(name, [])`). -/
def getWordsForCategory (wb : WordBank) (category_name : String) : List String :=
  let category_name :=
    if (wb.categories.lookup category_name).isNone then DEFAULT_CATEGORY else category_name
  (wb.categories.lookup category_name).getD []

/-- Method `WordBank.getRandomWord` (lines 70–78): raise
`ValueError(f"No words available for category '{category_name}'")` — naming
the category as originally passed — when the resolved list is empty,
otherwise return `random.choice(words)`, modelled as position `k % length`. -/
def getRandomWord (wb : WordBank) (category_name : String) (k : Nat) : Except String String :=
  match getWordsForCategory wb category_name with
  | [] => Except.error ("No words available for category '" ++ category_name ++ "'")
  | w :: ws => Except.ok ((w :: ws).get ⟨k % (ws.length + 1), Nat.mod_lt k (Nat.succ_pos ws.length)⟩)

/-! ## Helper lemmas -/

/-- The hint candidate list is empty iff every alphabetic character of the
secret word is already used. -/
theorem unguessed_eq_nil_iff (g : HangmanGame) :
    unguessed g = [] ↔ ∀ c ∈ g.secret_word, c.isAlpha = true → c ∈ g.used_letters := by
  simp only [unguessed, List.filter_eq_nil_iff, decide_eq_true_eq]
  constructor
  · intro h c hc ha
    by_contra hu
    exact h c hc ⟨hu, ha⟩
  · intro h c hc ⟨hu, ha⟩
    exact hu (h c hc ha)

/-- In every reachable state, `used_letters` holds only alphabetic
characters: the auto-reveal letters are alphabetic, a guess is rejected
before insertion unless it is alphabetic, and a hint inserts a character
filtered by `isalpha`. -/
theorem used_isAlpha_of_reachable {g : HangmanGame} (hg : Reachable g) :
    ∀ c ∈ g.used_letters, c.isAlpha = true := by
  induction hg with
  | init w m =>
      have h : ∀ c ∈ AUTO_REVEAL_LETTERS, c.isAlpha = true := by decide
      intro c hc
      apply h
      simpa [initGame, autoRevealCommonLetters] using hc
  | reset g w _ _ =>
      have h : ∀ c ∈ AUTO_REVEAL_LETTERS, c.isAlpha = true := by decide
      intro c hc
      apply h
      simpa [resetGame, autoRevealCommonLetters] using hc
  | guess g s _ ih =>
      intro c hc
      cases hmap : s.map Char.toLower with
      | nil =>
          simp only [processGuess, hmap] at hc
          exact ih c hc
      | cons c' tl =>
          cases tl with
          | cons d tl' =>
              simp only [processGuess, hmap] at hc
              exact ih c hc
          | nil =>
              by_cases ha : c'.isAlpha
              · by_cases hu : c' ∈ g.used_letters
                · simp only [processGuess, hmap, ha, hu] at hc
                  simp at hc
                  exact ih c hc
                · by_cases hs : c' ∈ g.secret_word
                  · simp only [processGuess, hmap] at hc
                    simp [ha, hu, hs] at hc
                    rcases hc with rfl | hc
                    · exact ha
                    · exact ih c hc
                  · simp only [processGuess, hmap] at hc
                    simp [ha, hu, hs] at hc
                    rcases hc with rfl | hc
                    · exact ha
                    · exact ih c hc
              · simp only [processGuess, hmap] at hc
                simp [ha] at hc
                exact ih c hc
  | hint g k _ ih =>
      intro c hc
      by_cases hr : g.max_attempts - (g.wrong_guesses : Int) < (HINT_COST : Int)
      · simp only [useHint, hr] at hc
        simp at hc
        exact ih c hc
      · cases hu : unguessed g with
        | nil =>
            simp only [useHint, hr, hu] at hc
            simp at hc
            exact ih c hc
        | cons c' cs =>
            simp only [useHint, hr, hu] at hc
            simp at hc
            rcases hc with rfl | hc
            · have hmem : (c' :: cs).get
                  ⟨k % (cs.length + 1), Nat.mod_lt k (Nat.succ_pos cs.length)⟩ ∈ unguessed g := by
                rw [hu]
                exact List.get_mem _ _ _
              simp only [unguessed, List.mem_filter, decide_eq_true_eq] at hmem
              simpa using hmem.2.2
            · exact ih c hc

/-- Characterisation of the successful branch of `useHint`: with enough
budget and a non-empty candidate list, the hint reveals the `k % length`-th
candidate, records it as used and charges `HINT_COST`. -/
theorem useHint_cons (g : HangmanGame) (k : Nat) (c : Char) (cs : List Char)
    (hr : ¬ g.max_attempts - (g.wrong_guesses : Int) < (HINT_COST : Int))
    (hu : unguessed g = c :: cs) :
    useHint g k =
      (some ((c :: cs).get ⟨k % (cs.length + 1), Nat.mod_lt k (Nat.succ_pos cs.length)⟩),
        { g with
          used_letters :=
            insert ((c :: cs).get ⟨k % (cs.length + 1), Nat.mod_lt k (Nat.succ_pos cs.length)⟩)
              g.used_letters
          wrong_guesses := g.wrong_guesses + HINT_COST }) := by
  simp [useHint, hr, hu]

/-- Joining one-character fragments with `List.intercalate` is `List.intersperse` of
the characters. -/
theorem intercalate_map_singleton (s : Char) :
    ∀ l : List Char, List.intercalate [s] (l.map (fun c => [c])) = List.intersperse s l
  | [] => by simp [List.intercalate]
  | [a] => by simp [List.intercalate]
  | a :: b :: t => by
      have ih := intercalate_map_singleton s (b :: t)
      simp only [List.intercalate] at ih ⊢
      simp only [List.map_cons, List.intersperse_cons_cons, List.flatten_cons]
      simp only [List.map_cons] at ih
      simp [ih]

/-! ## The claims -/

/-- **C1 (amended).** For every reachable engine state, `isWon()` returns
true iff every character of `secretWord` is alphabetic and a member of
`usedLetters`; in particular non-alphabetic characters of the secret word do
affect the result (they make winning unreachable), because `isWon` quantifies
over every character of the word while reachable `usedLetters` hold only
alphabetic characters. -/
theorem isWon_iff_of_reachable (g : HangmanGame) (hg : Reachable g) :
    isWon g = true ↔ ∀ c ∈ g.secret_word, c.isAlpha = true ∧ c ∈ g.used_letters := by
  simp only [isWon, List.all_eq_true, decide_eq_true_eq]
  constructor
  · intro h c hc
    exact ⟨used_isAlpha_of_reachable hg c (h c hc), h c hc⟩
  · intro h c hc
    exact (h c hc).2

/-- Witness for C1 (amended): the word `"test"` is fully covered by the
auto-reveal letters, so the freshly constructed round is already won. -/
theorem isWon_iff_of_reachable_witness :
    isWon (initGame "test".toList 6) = true :=
  (isWon_iff_of_reachable _ (Reachable.init "test".toList 6)).mpr (by decide)

/-- **C1 (counterexample).** The state reached from `GameEngine("a1", 6)` by
`guess("a")` is reachable, every alphabetic character of its secret word is
in `usedLetters`, yet `isWon()` returns `false` — refuting the claim that
non-alphabetic characters of the secret word do not affect the result. -/
theorem isWon_alpha_only_counterexample :
    Reachable (processGuess (initGame "a1".toList 6) "a".toList).2
    ∧ (∀ c ∈ (processGuess (initGame "a1".toList 6) "a".toList).2.secret_word,
        c.isAlpha = true → c ∈ (processGuess (initGame "a1".toList 6) "a".toList).2.used_letters)
    ∧ isWon (processGuess (initGame "a1".toList 6) "a".toList).2 = false :=
  ⟨Reachable.guess _ _ (Reachable.init "a1".toList 6), by decide, by decide⟩

/-- **C3.** `hint()` returns `none` exactly when fewer than `HINT_COST`
attempts remain or every alphabetic character of the secret word is already
used, and in that case the state is completely unchanged. -/
theorem useHint_none_iff_and_no_mutation (g : HangmanGame) (k : Nat) :
    ((useHint g k).1 = none ↔
      (g.max_attempts - (g.wrong_guesses : Int) < (HINT_COST : Int)
        ∨ ∀ c ∈ g.secret_word, c.isAlpha = true → c ∈ g.used_letters))
    ∧ ((useHint g k).1 = none → (useHint g k).2 = g) := by
  by_cases hr : g.max_attempts - (g.wrong_guesses : Int) < (HINT_COST : Int)
  · exact ⟨by simp [useHint, hr], fun _ => by simp [useHint, hr]⟩
  · cases hu : unguessed g with
    | nil =>
        refine ⟨?_, fun _ => by simp [useHint, hr, hu]⟩
        have hall := (unguessed_eq_nil_iff g).mp hu
        simp [useHint, hr, hu]
        exact hall
    | cons c cs =>
        have hne : ¬ ∀ c ∈ g.secret_word, c.isAlpha = true → c ∈ g.used_letters := by
          intro h
          rw [← unguessed_eq_nil_iff] at h
          rw [h] at hu
          exact List.noConfusion hu
        refine ⟨by simp [useHint_cons g k c cs hr hu, hr, hne], fun h => ?_⟩
        rw [useHint_cons g k c cs hr hu] at h
        exact absurd h (by simp)

/-- Witness for C3: the spec scenario — `GameEngine("jazz", 6)` with
`wrongGuesses` forced to 5 has only one attempt left, so `hint()` returns
`none` and the state (in particular `wrongGuesses = 5`) is unchanged. -/
theorem useHint_none_iff_and_no_mutation_witness :
    (useHint { initGame "jazz".toList 6 with wrong_guesses := 5 } 0).1 = none
    ∧ (useHint { initGame "jazz".toList 6 with wrong_guesses := 5 } 0).2
        = { initGame "jazz".toList 6 with wrong_guesses := 5 } :=
  ⟨(useHint_none_iff_and_no_mutation _ 0).1.mpr (Or.inl (by decide)),
   (useHint_none_iff_and_no_mutation _ 0).2
     ((useHint_none_iff_and_no_mutation _ 0).1.mpr (Or.inl (by decide)))⟩

/-- **C4.** When `hint()` returns a letter, that letter is an alphabetic
character of the secret word that was not yet used; afterwards it is in
`usedLetters`, `wrongGuesses` has grown by exactly `HINT_COST = 2`, and
`secretWord` and `maxAttempts` are unchanged. -/
theorem useHint_some_spec (g : HangmanGame) (k : Nat) (c : Char)
    (h : (useHint g k).1 = some c) :
    c ∈ g.secret_word ∧ c.isAlpha = true ∧ c ∉ g.used_letters
    ∧ c ∈ (useHint g k).2.used_letters
    ∧ (useHint g k).2.wrong_guesses = g.wrong_guesses + HINT_COST
    ∧ HINT_COST = 2
    ∧ (useHint g k).2.secret_word = g.secret_word
    ∧ (useHint g k).2.max_attempts = g.max_attempts := by
  by_cases hr : g.max_attempts - (g.wrong_guesses : Int) < (HINT_COST : Int)
  · simp [useHint, hr] at h
  · cases hu : unguessed g with
    | nil => simp [useHint, hr, hu] at h
    | cons c' cs =>
        rw [useHint_cons g k c' cs hr hu] at h ⊢
        simp only [Option.some.injEq] at h
        subst h
        have hmem : (c' :: cs).get
            ⟨k % (cs.length + 1), Nat.mod_lt k (Nat.succ_pos cs.length)⟩ ∈ unguessed g := by
          rw [hu]
          exact List.get_mem _ _ _
        simp only [unguessed, List.mem_filter, decide_eq_true_eq] at hmem
        exact ⟨hmem.1, hmem.2.2, hmem.2.1, by simp, rfl, rfl, rfl, rfl⟩

/-- Witness for C4: the spec scenario — on `GameEngine("jazz", 6)` with the
randomness fixed to the first candidate, `hint()` returns `"j"`, `j` becomes
used, and `wrongGuesses` becomes 2. -/
theorem useHint_some_spec_witness :
    (useHint (initGame "jazz".toList 6) 0).1 = some 'j'
    ∧ 'j' ∈ (useHint (initGame "jazz".toList 6) 0).2.used_letters
    ∧ (useHint (initGame "jazz".toList 6) 0).2.wrong_guesses = 2 := by
  refine ⟨by decide, (useHint_some_spec (initGame "jazz".toList 6) 0 'j' (by decide)).2.2.2.1, ?_⟩
  have h := (useHint_some_spec (initGame "jazz".toList 6) 0 'j' (by decide)).2.2.2.2.1
  rw [h]
  decide

/-- **C6.** `reset(w)` produces exactly the state of a fresh construction
with the same `maxAttempts`: the lowercased word, zero wrong guesses, and
`usedLetters` equal to the auto-reveal set `{r, s, t, l, n, e}`. -/
theorem resetGame_eq_initGame (g : HangmanGame) (w : List Char) :
    resetGame g w = initGame w g.max_attempts
    ∧ (resetGame g w).secret_word = w.map Char.toLower
    ∧ (resetGame g w).wrong_guesses = 0
    ∧ (resetGame g w).used_letters = {'r', 's', 't', 'l', 'n', 'e'} := by
  refine ⟨rfl, rfl, rfl, ?_⟩
  show ∅ ∪ AUTO_REVEAL_LETTERS = _
  decide

/-- **C10.** A secret word containing a non-alphabetic character can never
be won: in every reachable state `isWon()` returns `false`, because guesses
and hints only ever insert alphabetic characters into `usedLetters`. -/
theorem nonalpha_secret_never_won (g : HangmanGame) (hg : Reachable g)
    (c : Char) (hc : c ∈ g.secret_word) (hna : c.isAlpha = false) :
    isWon g = false := by
  by_contra h
  rw [Bool.not_eq_false] at h
  simp only [isWon, List.all_eq_true, decide_eq_true_eq] at h
  rw [used_isAlpha_of_reachable hg c (h c hc)] at hna
  exact Bool.noConfusion hna

/-- Witness for C10: `GameEngine("a1", 6)` (reachable by construction) has
the non-alphabetic `'1'` in its word, so it is not won. -/
theorem nonalpha_secret_never_won_witness :
    isWon (initGame "a1".toList 6) = false :=
  nonalpha_secret_never_won _ (Reachable.init "a1".toList 6) '1' (by decide) (by decide)

/-- **C7.** `maskedWord()` produces, for each character of the secret word
in order, that character when used and `'_'` otherwise, joined by single
spaces (stated via `List.intersperse`); in particular
`GameEngine("hangman", 6).maskedWord()` is `"_ _ n _ _ _ n"`.  The query is
a pure function of the state in this embedding, so it mutates nothing by
construction. -/
theorem getMaskedWord_spec (g : HangmanGame) :
    getMaskedWord g
      = List.intersperse ' ' (g.secret_word.map (fun c => if c ∈ g.used_letters then c else '_'))
    ∧ getMaskedWord (initGame "hangman".toList 6) = "_ _ n _ _ _ n".toList := by
  constructor
  · have hfun : (fun letter => if letter ∈ g.used_letters then [letter] else ['_'])
        = ((fun c : Char => [c]) ∘ (fun c : Char => if c ∈ g.used_letters then c else '_')) := by
      funext c
      by_cases h : c ∈ g.used_letters <;> simp [h]
    simp only [getMaskedWord, hfun, ← List.map_map]
    exact intercalate_map_singleton ' ' _
  · decide

/-- **C5.** `guess(letter)` returns `false` with no state change when the
lowercased input is not a single character, when it is a single
non-alphabetic character, or when it is already used; and a repeated guess
of the same input always returns `false` and changes nothing. -/
theorem processGuess_reject_and_idempotent (g : HangmanGame) (letter : List Char) :
    ((letter.map Char.toLower).length ≠ 1 → processGuess g letter = (false, g))
    ∧ (∀ c, letter.map Char.toLower = [c] →
        c.isAlpha = false ∨ c ∈ g.used_letters → processGuess g letter = (false, g))
    ∧ processGuess (processGuess g letter).2 letter = (false, (processGuess g letter).2) := by
  refine ⟨?_, ?_, ?_⟩
  · intro hlen
    cases hmap : letter.map Char.toLower with
    | nil => simp [processGuess, hmap]
    | cons c tl =>
        cases tl with
        | nil => rw [hmap] at hlen; simp at hlen
        | cons d tl' => simp [processGuess, hmap]
  · intro c hmap hrej
    rcases hrej with ha | hu
    · simp [processGuess, hmap, ha]
    · by_cases ha : c.isAlpha = true <;> simp [processGuess, hmap, ha, hu]
  · cases hmap : letter.map Char.toLower with
    | nil => simp [processGuess, hmap]
    | cons c tl =>
        cases tl with
        | cons d tl' => simp [processGuess, hmap]
        | nil =>
            by_cases ha : c.isAlpha = true
            · by_cases hu : c ∈ g.used_letters
              · simp [processGuess, hmap, ha, hu]
              · by_cases hs : c ∈ g.secret_word <;>
                  simp [processGuess, hmap, ha, hu, hs]
            · simp [processGuess, hmap, ha]

/-- Witness for C5: on `GameEngine("jazz", 6)`, the two-character input
`"rr"` and the already-used (auto-revealed) letter `"r"` are both rejected
with no state change. -/
theorem processGuess_reject_and_idempotent_witness :
    processGuess (initGame "jazz".toList 6) ['r', 'r'] = (false, initGame "jazz".toList 6)
    ∧ processGuess (initGame "jazz".toList 6) ['r'] = (false, initGame "jazz".toList 6) :=
  ⟨(processGuess_reject_and_idempotent _ _).1 (by decide),
   (processGuess_reject_and_idempotent _ _).2.1 'r' (by decide) (Or.inr (by decide))⟩

/-- **C2 (counterexample).** On a fresh `GameEngine("jazz", 6)` the
candidate pool handed to `random.choice` is `['j','a','z','z']` — not the
duplicate-free set `['j','a','z']` — and under a uniform choice over the
pool's positions the letter `z` is revealed for 2 of the 4 positions while
`j` is revealed for only 1: distinct letters are not equally likely. -/
theorem hint_pool_counterexample :
    unguessed (initGame "jazz".toList 6) = ['j', 'a', 'z', 'z']
    ∧ (unguessed (initGame "jazz".toList 6)).dedup = ['j', 'a', 'z']
    ∧ ((List.range (unguessed (initGame "jazz".toList 6)).length).countP
        (fun k => (useHint (initGame "jazz".toList 6) k).1 = some 'z')) = 2
    ∧ ((List.range (unguessed (initGame "jazz".toList 6)).length).countP
        (fun k => (useHint (initGame "jazz".toList 6) k).1 = some 'j')) = 1 :=
  ⟨by decide, by decide, by decide, by decide⟩

/-- Counting the positions of a list that hold `c` gives `c`'s occurrence
count. -/
theorem countP_range_get?_eq_count (c : Char) :
    ∀ l : List Char,
      (List.range l.length).countP (fun k => l.get? k = some c) = l.count c
  | [] => by simp
  | x :: xs => by
      have ih := countP_range_get?_eq_count c xs
      have hcomp : List.countP ((fun k => decide ((x :: xs).get? k = some c)) ∘ Nat.succ)
            (List.range xs.length)
          = List.countP (fun k => decide (xs.get? k = some c)) (List.range xs.length) := by
        apply List.countP_congr
        intro k _
        simp [Function.comp]
      rw [List.length_cons, List.range_succ_eq_map, List.countP_cons, List.countP_map,
        List.count_cons, hcomp, ih]
      by_cases hxc : x = c
      · simp [hxc]
      · simp [hxc]

/-- **C2 (amended).** Whenever the hint budget allows, the candidate pool is
the list of unguessed alphabetic characters of the secret word in order and
*with multiplicity*, and the revealed letter is uniform over the pool's
positions: out of the `pool.length` equally likely randomness outcomes,
exactly `pool.count c` reveal the letter `c` — so each distinct letter's
probability is proportional to its number of unguessed occurrences, not
uniform over distinct letters. -/
theorem useHint_uniform_over_occurrences (g : HangmanGame) (c : Char)
    (hr : ¬ g.max_attempts - (g.wrong_guesses : Int) < (HINT_COST : Int)) :
    (List.range (unguessed g).length).countP
        (fun k => (useHint g k).1 = some c) = (unguessed g).count c := by
  rw [← countP_range_get?_eq_count c (unguessed g)]
  apply List.countP_congr
  intro k hk
  rw [List.mem_range] at hk
  cases hu : unguessed g with
  | nil => rw [hu] at hk; simp at hk
  | cons c' cs =>
      rw [hu] at hk
      have hlt : k < (c' :: cs).length := hk
      have hlt' : k < cs.length + 1 := by simpa using hk
      have hidx : (⟨k % (cs.length + 1), Nat.mod_lt k (Nat.succ_pos cs.length)⟩
          : Fin (c' :: cs).length) = ⟨k, hlt⟩ := by
        apply Fin.ext
        exact Nat.mod_eq_of_lt hlt'
      rw [useHint_cons g k c' cs hr hu, hidx, List.get?_eq_get hlt]

/-- Witness for C2 (amended): on a fresh `GameEngine("jazz", 6)`, the number
of randomness outcomes revealing `z` equals `z`'s occurrence count in the
pool (namely 2). -/
theorem useHint_uniform_over_occurrences_witness :
    (List.range (unguessed (initGame "jazz".toList 6)).length).countP
        (fun k => (useHint (initGame "jazz".toList 6) k).1 = some 'z')
      = (unguessed (initGame "jazz".toList 6)).count 'z' :=
  useHint_uniform_over_occurrences (initGame "jazz".toList 6) 'z' (by decide)

/-- One mutating call never lowers the wrong-guess counter. -/
theorem wrong_guesses_le_applyOp (g : HangmanGame) (op : GameOp) :
    g.wrong_guesses ≤ (applyOp g op).wrong_guesses := by
  cases op with
  | guess s =>
      show g.wrong_guesses ≤ (processGuess g s).2.wrong_guesses
      cases hmap : s.map Char.toLower with
      | nil => simp [processGuess, hmap]
      | cons c tl =>
          cases tl with
          | cons d tl' => simp [processGuess, hmap]
          | nil =>
              by_cases ha : c.isAlpha = true
              · by_cases hu : c ∈ g.used_letters
                · simp [processGuess, hmap, ha, hu]
                · by_cases hs : c ∈ g.secret_word <;>
                    simp [processGuess, hmap, ha, hu, hs]
              · simp [processGuess, hmap, ha]
  | hint k =>
      show g.wrong_guesses ≤ (useHint g k).2.wrong_guesses
      by_cases hr : g.max_attempts - (g.wrong_guesses : Int) < (HINT_COST : Int)
      · simp [useHint, hr]
      · cases hu : unguessed g with
        | nil => simp [useHint, hr, hu]
        | cons c cs => simp [useHint_cons g k c cs hr hu]

/-- The wrong-guess counter is monotone along any sequence of mutating
calls. -/
theorem wrong_guesses_le_foldl :
    ∀ (ops : List GameOp) (g : HangmanGame),
      g.wrong_guesses ≤ (ops.foldl applyOp g).wrong_guesses
  | [], _ => le_refl _
  | op :: ops, g =>
      le_trans (wrong_guesses_le_applyOp g op) (wrong_guesses_le_foldl ops (applyOp g op))

/-- **C8.** Within a round, `wrongGuesses` never decreases across any
sequence of guess/hint calls (queries are pure); it grows by exactly 1 on a
guess of a fresh alphabetic letter absent from the secret word and is
otherwise unchanged by a guess; it grows by exactly `HINT_COST` on a
successful hint and is unchanged by a failed one; and `reset` returns it
to 0. -/
theorem wrongGuesses_monotone_and_deltas (g : HangmanGame) :
    (∀ ops : List GameOp, g.wrong_guesses ≤ (ops.foldl applyOp g).wrong_guesses)
    ∧ (∀ s : List Char,
        ((∃ c, s.map Char.toLower = [c] ∧ c.isAlpha = true
            ∧ c ∉ g.used_letters ∧ c ∉ g.secret_word) →
          (processGuess g s).2.wrong_guesses = g.wrong_guesses + 1)
        ∧ (¬ (∃ c, s.map Char.toLower = [c] ∧ c.isAlpha = true
            ∧ c ∉ g.used_letters ∧ c ∉ g.secret_word) →
          (processGuess g s).2.wrong_guesses = g.wrong_guesses))
    ∧ (∀ k : Nat,
        ((useHint g k).1.isSome = true →
          (useHint g k).2.wrong_guesses = g.wrong_guesses + HINT_COST)
        ∧ ((useHint g k).1 = none → (useHint g k).2.wrong_guesses = g.wrong_guesses))
    ∧ (∀ w : List Char, (resetGame g w).wrong_guesses = 0) := by
  refine ⟨fun ops => wrong_guesses_le_foldl ops g, fun s => ⟨?_, ?_⟩, fun k => ⟨?_, ?_⟩,
    fun _ => rfl⟩
  · rintro ⟨c, hmap, ha, hu, hs⟩
    simp [processGuess, hmap, ha, hu, hs]
  · intro hnone
    cases hmap : s.map Char.toLower with
    | nil => simp [processGuess, hmap]
    | cons c tl =>
        cases tl with
        | cons d tl' => simp [processGuess, hmap]
        | nil =>
            by_cases ha : c.isAlpha = true
            · by_cases hu : c ∈ g.used_letters
              · simp [processGuess, hmap, ha, hu]
              · by_cases hs : c ∈ g.secret_word
                · simp [processGuess, hmap, ha, hu, hs]
                · exact absurd ⟨c, hmap, ha, hu, hs⟩ hnone
            · simp [processGuess, hmap, ha]
  · intro hsome
    by_cases hr : g.max_attempts - (g.wrong_guesses : Int) < (HINT_COST : Int)
    · rw [show (useHint g k).1 = none from by simp [useHint, hr]] at hsome
      exact Bool.noConfusion hsome
    · cases hu : unguessed g with
      | nil =>
          rw [show (useHint g k).1 = none from by simp [useHint, hr, hu]] at hsome
          exact Bool.noConfusion hsome
      | cons c cs => simp [useHint_cons g k c cs hr hu]
  · intro hnone
    by_cases hr : g.max_attempts - (g.wrong_guesses : Int) < (HINT_COST : Int)
    · simp [useHint, hr]
    · cases hu : unguessed g with
      | nil => simp [useHint, hr, hu]
      | cons c cs =>
          rw [useHint_cons g k c cs hr hu] at hnone
          exact Option.noConfusion hnone

/-- Witness for C8: on `GameEngine("jazz", 6)`, guessing the absent letter
`"q"` raises `wrongGuesses` by exactly 1, while guessing the present letter
`"j"` leaves it unchanged. -/
theorem wrongGuesses_monotone_and_deltas_witness :
    (processGuess (initGame "jazz".toList 6) ['q']).2.wrong_guesses
      = (initGame "jazz".toList 6).wrong_guesses + 1
    ∧ (processGuess (initGame "jazz".toList 6) ['j']).2.wrong_guesses
      = (initGame "jazz".toList 6).wrong_guesses :=
  ⟨((wrongGuesses_monotone_and_deltas (initGame "jazz".toList 6)).2.1 ['q']).1
      ⟨'q', by decide, by decide, by decide, by decide⟩,
   ((wrongGuesses_monotone_and_deltas (initGame "jazz".toList 6)).2.1 ['j']).2
      (by
        rintro ⟨c, hmap, -, -, hs⟩
        rw [show (['j'] : List Char).map Char.toLower = ['j'] from by decide] at hmap
        injection hmap with h1 _
        subst h1
        exact hs (by decide))⟩

/-- **C9.** `randomWord(c)` resolves an unknown category to the default
category's word list; it fails — with an error naming the requested
category — exactly when the resolved list is empty, and otherwise returns a
member of the resolved list. -/
theorem getRandomWord_spec (wb : WordBank) (c : String) (k : Nat) :
    ((wb.categories.lookup c).isNone = true →
      getWordsForCategory wb c = (wb.categories.lookup DEFAULT_CATEGORY).getD [])
    ∧ (getWordsForCategory wb c = [] →
        getRandomWord wb c k = Except.error ("No words available for category '" ++ c ++ "'"))
    ∧ (getWordsForCategory wb c ≠ [] →
        ∃ w, getRandomWord wb c k = Except.ok w ∧ w ∈ getWordsForCategory wb c) := by
  refine ⟨?_, ?_, ?_⟩
  · intro h
    simp [getWordsForCategory, h]
  · intro h
    simp [getRandomWord, h]
  · intro h
    cases hw : getWordsForCategory wb c with
    | nil => exact absurd hw h
    | cons w ws =>
        refine ⟨(w :: ws).get ⟨k % (ws.length + 1), Nat.mod_lt k (Nat.succ_pos ws.length)⟩,
          ?_, ?_⟩
        · simp [getRandomWord, hw]
        · exact List.get_mem _ _ _

/-- Witness for C9: a word bank with no categories at all resolves every
request to the empty list and errors naming the requested category, while
the default word bank resolves an unknown category to the (non-empty)
default list and succeeds with one of its members. -/
theorem getRandomWord_spec_witness :
    getRandomWord ⟨[]⟩ "animals" 0 = Except.error "No words available for category 'animals'"
    ∧ ∃ w, getRandomWord initWordBank "not a category" 0 = Except.ok w
        ∧ w ∈ getWordsForCategory initWordBank "not a category" :=
  ⟨(getRandomWord_spec ⟨[]⟩ "animals" 0).2.1 (by decide),
   (getRandomWord_spec initWordBank "not a category" 0).2.2 (by decide)⟩

end Hangman
